import Mathlib

/-!
A shallow embedding of the single-page-app handler in `spa.go` (package `spa`).

Go strings are modelled as `List Char`, byte slices as `List Nat`.  The
standard-library collaborators that the package calls are modelled as follows:

* `path.Clean`, `path.Join`, `filepath.Ext`, `strings.Contains`,
  `strings.HasPrefix` are implemented below following the Go standard library
  (on unix, `filepath.Join`/`filepath.Ext` coincide with the slash-separated
  `path` versions used here).
* `mime.TypeByExtension` is an injected pure function `Str → Str`.
* the gzip compressor (`compress/gzip`, best compression) is an injected
  fallible function `Bytes → Except Str Bytes`.
* the filesystem is an inductive tree; an unreadable file carries an
  `Except.error` content, an unreadable directory is a `badDir` node.
* an `http.ResponseWriter` is modelled by the `Response` it ends up holding:
  the headers added, the body written and the resulting status code.
-/

set_option maxRecDepth 100000

namespace Spa

/-- Byte sequences (Go `[]byte`) are modelled as lists of naturals. -/
abbrev Bytes := List Nat

/-- Go strings are modelled as lists of characters. -/
abbrev Str := List Char

/-- Convert a Lean string literal into the `Str` model. -/
def str (s : String) : Str := s.data

/-- Go `strings.Contains s sub`: `sub` occurs as a contiguous substring of `s`. -/
def goContains (s sub : Str) : Bool :=
  sub.isPrefixOf s ||
    match s with
    | [] => false
    | _ :: rest => goContains rest sub

/-- Processing of a single path element by Go `path.Clean`: `""` and `"."`
elements are dropped, `".."` backtracks one element when possible (on a rooted
path a `".."` at the root is dropped, on an unrooted path it is kept), and any
other element is appended. -/
def cleanStep (rooted : Bool) (out : List Str) (seg : Str) : List Str :=
  if seg = [] ∨ seg = ['.'] then out
  else if seg = ['.', '.'] then
    if out ≠ [] ∧ out.getLast? ≠ some ['.', '.'] then out.dropLast
    else if rooted then out
    else out ++ [['.', '.']]
  else out ++ [seg]

/-- Fold `cleanStep` over the path elements. -/
def cleanSegs (rooted : Bool) (out : List Str) : List Str → List Str
  | [] => out
  | seg :: rest => cleanSegs rooted (cleanStep rooted out seg) rest

/-- Go `path.Clean`: purely lexical path cleaning (shortest equivalent path). -/
def goClean (p : Str) : Str :=
  if p = [] then str "."
  else
    let rooted := p.head? = some '/'
    let out := cleanSegs rooted [] (p.splitOn '/')
    if out = [] then (if rooted then str "/" else str ".")
    else (if rooted then ['/'] else []) ++ List.intercalate ['/'] out

/-- Go `path.Join a b` (two-argument form): skip empty elements, join with a
slash, clean the result.  On unix `filepath.Join` behaves identically. -/
def goJoin (a b : Str) : Str :=
  if a = [] ∧ b = [] then []
  else if a = [] then goClean b
  else goClean (a ++ '/' :: b)

/-- Helper for `goExt`: scans the reversed path, accumulating the characters
seen so far; stops at a path separator, returns the extension at a dot. -/
def extRevAux : Str → Str → Str
  | [], _ => []
  | c :: rest, acc =>
    if c = '/' then []
    else if c = '.' then c :: acc
    else extRevAux rest (c :: acc)

/-- Go `path/filepath.Ext` (unix): the suffix beginning at the final dot in the
final path element; empty if there is no dot. -/
def goExt (p : Str) : Str := extRevAux p.reverse []

/-- `contentTypeIsAlreadyCompressed` from `spa.go`: the fixed set of
pre-compressed media types. -/
def contentTypeIsAlreadyCompressed (contentType : Str) : Bool :=
  decide (contentType = str "image/jpeg" ∨ contentType = str "image/png" ∨
    contentType = str "image/gif" ∨ contentType = str "audio/mpeg" ∨
    contentType = str "video/mp4")

/-- `tcpPacketDataSize` constant from `spa.go`. -/
def tcpPacketDataSize : Int := 1460

/-- `cacheEntry` from `spa.go`.  The two handler closures are replaced by the
byte buffers they capture: `identityPayload` is the `bs` captured by
`identityHandler`, and `gzipPayload` is `some gbs` exactly when `gzipHandler`
is non-nil (it captures `gbs`). -/
structure cacheEntry where
  urlpath : Str
  contentType : Str
  identitySize : Int
  identityPayload : Bytes
  shouldServeCompressed : Bool
  compressedSize : Int
  gzipPayload : Option Bytes
deriving DecidableEq, Repr

/-- The state of an `http.ResponseWriter` after a handler ran: headers added
(in order), body bytes written, and the response status code. -/
structure Response where
  headers : List (Str × Str)
  body : Bytes
  status : Nat
deriving DecidableEq, Repr

/-- The `identityHandler` closure built in `appendFileEntry`: adds the
Content-Type header (unconditionally), writes the plain payload, status 200. -/
def identityResponse (ce : cacheEntry) : Response :=
  { headers := [(str "Content-Type", ce.contentType)],
    body := ce.identityPayload, status := 200 }

/-- The `gzipHandler` closure built in `appendFileEntry`: adds Content-Type
and `Content-Encoding: gzip`, writes the compressed payload, status 200. -/
def gzipResponse (ce : cacheEntry) (gbs : Bytes) : Response :=
  { headers := [(str "Content-Type", ce.contentType),
                (str "Content-Encoding", str "gzip")],
    body := gbs, status := 200 }

/-- `appendFileEntry` from `spa.go`.  `mt` models `mime.TypeByExtension`, `gz`
the gzip compressor, `content` the result of opening and reading `fpath`.
Note that the `shouldServeCompressed` comparison reads the *field*
`ce.compressedSize`, which still holds its initializer `-1` at that point,
exactly as the source does; Go's `/` on `int` is `Int.tdiv` (truncation). -/
def appendFileEntry (mt : Str → Str) (gz : Bytes → Except Str Bytes)
    (slice : List cacheEntry) (urlpath fpath : Str) (content : Except Str Bytes) :
    Except Str (List cacheEntry) := do
  let bs ← content
  let ct := mt (goExt fpath)
  let ce : cacheEntry :=
    { urlpath := urlpath, contentType := ct, identitySize := bs.length,
      identityPayload := bs, shouldServeCompressed := false,
      compressedSize := -1, gzipPayload := none }
  let gbs ← gz bs
  let compressedSize : Int := gbs.length
  let should1 : Bool :=
    decide (ce.compressedSize.tdiv tcpPacketDataSize < ce.identitySize.tdiv tcpPacketDataSize)
  let should2 : Bool := if contentTypeIsAlreadyCompressed ce.contentType then false else should1
  let ce2 : cacheEntry :=
    if should2 then
      { ce with shouldServeCompressed := true, compressedSize := compressedSize,
                gzipPayload := some gbs }
    else
      { ce with shouldServeCompressed := should2 }
  return slice ++ [ce2]

/-- A filesystem tree.  A `file`'s `content` is the result of opening and
reading it (`Except.error` for an unreadable file); a `badDir` is a directory
`os.ReadDir` fails on. -/
inductive FsEntry where
  | file (name : Str) (content : Except Str Bytes)
  | dir (name : Str) (entries : List FsEntry)
  | badDir (name : Str) (err : Str)
deriving Repr

/-- The `dirEntry.Name()` of a tree node. -/
def FsEntry.name : FsEntry → Str
  | .file n _ => n
  | .dir n _ => n
  | .badDir n _ => n

/-- The hidden-entry check of `appendDirEntries`: names beginning with `.` or
`_` are skipped. -/
def skipName (n : Str) : Bool :=
  (str ".").isPrefixOf n || (str "_").isPrefixOf n

mutual

/-- The loop body of `appendDirEntries` for one directory entry. -/
def appendEntry (mt : Str → Str) (gz : Bytes → Except Str Bytes)
    (slice : List cacheEntry) (urlpath fpath : Str) :
    FsEntry → Except Str (List cacheEntry)
  | .file n content =>
    if skipName n then .ok slice
    else appendFileEntry mt gz slice (goJoin urlpath n) (goJoin fpath n) content
  | .dir n entries =>
    if skipName n then .ok slice
    else appendDirEntries mt gz slice (goJoin urlpath n) (goJoin fpath n) entries
  | .badDir n err =>
    if skipName n then .ok slice else .error err

/-- `appendDirEntries` from `spa.go`, applied to the result of `os.ReadDir`:
processes the entries in order, threading the accumulated slice, aborting on
the first error. -/
def appendDirEntries (mt : Str → Str) (gz : Bytes → Except Str Bytes)
    (slice : List cacheEntry) (urlpath fpath : Str) :
    List FsEntry → Except Str (List cacheEntry)
  | [] => .ok slice
  | e :: rest => do
    let slice2 ← appendEntry mt gz slice urlpath fpath e
    appendDirEntries mt gz slice2 urlpath fpath rest

end

/-- `handler` from `spa.go`: the cache map, modelled as an association list
with Go-map semantics (`mapGet`/`mapSet`). -/
structure handler where
  cache : List (Str × cacheEntry)
deriving DecidableEq, Repr

/-- Go map lookup `m[k]`. -/
def mapGet (m : List (Str × cacheEntry)) (k : Str) : Option cacheEntry :=
  (m.find? (fun kv => decide (kv.1 = k))).map (fun kv => kv.2)

/-- Go map assignment `m[k] = v`: replaces the existing binding or appends. -/
def mapSet (m : List (Str × cacheEntry)) (k : Str) (v : cacheEntry) :
    List (Str × cacheEntry) :=
  match m with
  | [] => [(k, v)]
  | kv :: rest => if kv.1 = k then (k, v) :: rest else kv :: mapSet rest k v

/-- The map-building loop of `NewHandler`: `ret.cache[entry.urlpath] = entry`
for each entry in order. -/
def buildCacheMap (l : List cacheEntry) : List (Str × cacheEntry) :=
  l.foldl (fun m e => mapSet m e.urlpath e) []

/-- `defaultWebpath` constant from `spa.go`. -/
def defaultWebpath : Str := str "/index.html"

/-- `NewHandler` from `spa.go`: read the root directory, build the cache,
index it by url path, and fail unless `/index.html` is present. -/
def newHandler (mt : Str → Str) (gz : Bytes → Except Str Bytes)
    (dirPath : Str) (root : FsEntry) : Except Str handler := do
  let entries ← (match root with
    | .dir _ es => Except.ok es
    | .badDir _ err => Except.error err
    | .file _ _ => Except.error (str "spa: failed to read directory"))
  let cache ← appendDirEntries mt gz [] (str "/") dirPath entries
  let h : handler := { cache := buildCacheMap cache }
  if (mapGet h.cache defaultWebpath).isSome then Except.ok h
  else Except.error (str "spa: root /index.html not found")

/-- The encoding-negotiation tail of `ServeHTTP`: serve gzipped iff the
gzip handler exists and the Accept-Encoding value contains `"gzip"`. -/
def serveEntry (ce : cacheEntry) (acceptEncoding : Str) : Response :=
  match ce.gzipPayload with
  | some gbs =>
    if goContains acceptEncoding (str "gzip") then gzipResponse ce gbs
    else identityResponse ce
  | none => identityResponse ce

/-- `handler.ServeHTTP` from `spa.go`: normalize the request path, look it up,
fall back to `/index.html`, 500 if even that is missing, then negotiate the
encoding.  `acceptEncoding` is `r.Header.Get("Accept-Encoding")` (empty when
the header is absent). -/
def serveHTTP (h : handler) (urlPath acceptEncoding : Str) : Response :=
  let p0 := if (str "/").isPrefixOf urlPath then urlPath else '/' :: urlPath
  let p := goClean p0
  match mapGet h.cache p with
  | some entry => serveEntry entry acceptEncoding
  | none =>
    match mapGet h.cache defaultWebpath with
    | some entry => serveEntry entry acceptEncoding
    | none => { headers := [], body := [], status := 500 }

/-- The compression flag `appendFileEntry` ends up storing: the packet-count
comparison against the *stale* `compressedSize` field (still `-1`), overridden
to `false` for pre-compressed media types. -/
def builtFlag (mt : Str → Str) (fp : Str) (bs : Bytes) : Bool :=
  if contentTypeIsAlreadyCompressed (mt (goExt fp)) then false
  else decide ((-1 : Int).tdiv tcpPacketDataSize < ((bs.length : Int)).tdiv tcpPacketDataSize)

/-- The cache entry that `appendFileEntry` appends for a file with url path
`up`, filesystem path `fp`, raw content `bs` and gzip output `gbs`
(characterization of the source, proved equal in `appendFileEntry_eq`). -/
def builtEntry (mt : Str → Str) (up fp : Str) (bs gbs : Bytes) : cacheEntry :=
  if builtFlag mt fp bs then
    { urlpath := up, contentType := mt (goExt fp), identitySize := bs.length,
      identityPayload := bs, shouldServeCompressed := true,
      compressedSize := gbs.length, gzipPayload := some gbs }
  else
    { urlpath := up, contentType := mt (goExt fp), identitySize := bs.length,
      identityPayload := bs, shouldServeCompressed := builtFlag mt fp bs,
      compressedSize := -1, gzipPayload := none }

/-- The compression-worthiness decision exactly as the specification words it:
compare the 1460-byte packet counts of the plain size and of the length of the
gzip-compressed payload, and override to `false` for pre-compressed media
types.  (Spec-side definition, to be compared with the source.) -/
def specShouldCompress (plainSize compressedSize : Int) (contentType : Str) : Bool :=
  decide (compressedSize.tdiv tcpPacketDataSize < plainSize.tdiv tcpPacketDataSize) &&
    !contentTypeIsAlreadyCompressed contentType

/-- The url path of a file reached through the directory segments `segs`:
the segments joined with `/` and prefixed with `/`. -/
def rootedPath (segs : List Str) : Str :=
  '/' :: List.intercalate ['/'] segs

/-- A well-formed, non-hidden path segment: nonempty, free of `/`, and not
beginning with `.` (in particular neither `.` nor `..`). -/
def validSeg (s : Str) : Prop :=
  s ≠ [] ∧ '/' ∉ s ∧ s.head? ≠ some '.'

/-- Entry names are nonempty and contain no separator (as `os.ReadDir`
guarantees). -/
def goodName (n : Str) : Prop := n ≠ [] ∧ '/' ∉ n

mutual

/-- All names in the tree are well-formed directory-entry names. -/
def goodNames : FsEntry → Prop
  | .file n _ => goodName n
  | .dir n entries => goodName n ∧ goodNamesList entries
  | .badDir n _ => goodName n

/-- `goodNames` for every entry of a listing. -/
def goodNamesList : List FsEntry → Prop
  | [] => True
  | e :: rest => goodNames e ∧ goodNamesList rest

end

mutual

/-- Names are distinct within every directory listing of the tree. -/
def nodupNames : FsEntry → Prop
  | .file _ _ => True
  | .dir _ entries => (entries.map FsEntry.name).Nodup ∧ nodupNamesList entries
  | .badDir _ _ => True

/-- `nodupNames` for every entry of a listing. -/
def nodupNamesList : List FsEntry → Prop
  | [] => True
  | e :: rest => nodupNames e ∧ nodupNamesList rest

end

mutual

/-- Specification-side enumeration of the published files: the segment paths
(relative to the root) of every regular file none of whose path components
begins with `.` or `_`. -/
def publishedPaths (pre : List Str) : FsEntry → List (List Str)
  | .file n _ => if skipName n then [] else [pre ++ [n]]
  | .dir n entries => if skipName n then [] else publishedPathsList (pre ++ [n]) entries
  | .badDir _ _ => []

/-- `publishedPaths` over a listing, in order. -/
def publishedPathsList (pre : List Str) : List FsEntry → List (List Str)
  | [] => []
  | e :: rest => publishedPaths pre e ++ publishedPathsList pre rest

end

mutual

/-- The first error the walk encounters in DFS order: an unreadable directory,
an unreadable file, or a failing compression, ignoring hidden entries. -/
def firstError (gz : Bytes → Except Str Bytes) : FsEntry → Option Str
  | .file n content =>
    if skipName n then none
    else
      match content with
      | .error e => some e
      | .ok bs =>
        match gz bs with
        | .error e => some e
        | .ok _ => none
  | .dir n entries => if skipName n then none else firstErrorList gz entries
  | .badDir n err => if skipName n then none else some err

/-- `firstError` over a listing, in order. -/
def firstErrorList (gz : Bytes → Except Str Bytes) : List FsEntry → Option Str
  | [] => none
  | e :: rest =>
    match firstError gz e with
    | some err => some err
    | none => firstErrorList gz rest

end

/-- A concrete MIME lookup for witnesses: resolves no extension. -/
def mtW : Str → Str := fun _ => []

/-- A concrete MIME lookup for witnesses: the table the package's `init`
registers, restricted to the extensions the witnesses use. -/
def mtTable : Str → Str := fun ext =>
  if ext = str ".html" then str "text/html"
  else if ext = str ".png" then str "image/png"
  else []

/-- A concrete injectable compressor for witnesses: prepend one byte. -/
def gzW : Bytes → Except Str Bytes := fun bs => .ok (0 :: bs)

/-- The decompressor matching `gzW`: drop the first byte. -/
def unzW : Bytes → Bytes := fun g => g.tail

/-- A compressor that always fails, for error-propagation witnesses. -/
def gzBad : Bytes → Except Str Bytes := fun _ => .error (str "spa: error writing gzipped content")

/-- Witness directory listing: a single one-byte `index.html`. -/
def esW : List FsEntry := [.file (str "index.html") (.ok [60])]

/-- The cache the walk over `esW` produces. -/
def cacheW : List cacheEntry :=
  [builtEntry mtW (str "/index.html") (str "/r/index.html") [60] [0, 60]]

/-- Witness cache record: the record built for the one-byte `/index.html`. -/
def ceIdxW : cacheEntry :=
  builtEntry mtW (str "/index.html") (str "/r/index.html") [60] [0, 60]

/-- Witness handler holding only the record `ceIdxW`. -/
def hW : handler := { cache := [(str "/index.html", ceIdxW)] }

/-- The number of cache records whose url path is `k`. -/
def countKey (cache : List cacheEntry) (k : Str) : Nat :=
  cache.countP (fun ce => decide (ce.urlpath = k))

/-! ### Characterization of `appendFileEntry` -/

/-- `appendFileEntry` on an unreadable file propagates the error. -/
lemma appendFileEntry_err (mt : Str → Str) (gz : Bytes → Except Str Bytes)
    (slice : List cacheEntry) (up fp e) :
    appendFileEntry mt gz slice up fp (.error e) = .error e := rfl

/-- `appendFileEntry` on a readable file: propagate a compressor error, else
append exactly the `builtEntry`. -/
lemma appendFileEntry_eq (mt : Str → Str) (gz : Bytes → Except Str Bytes)
    (slice : List cacheEntry) (up fp : Str) (bs : Bytes) :
    appendFileEntry mt gz slice up fp (.ok bs) =
      match gz bs with
      | .error e => .error e
      | .ok gbs => .ok (slice ++ [builtEntry mt up fp bs gbs]) := by
  cases h : gz bs <;>
    simp only [appendFileEntry, builtEntry, builtFlag, bind, Except.bind, h, pure, Except.pure]

lemma builtEntry_urlpath (mt up fp bs gbs) :
    (builtEntry mt up fp bs gbs).urlpath = up := by
  cases hf : builtFlag mt fp bs <;> simp [builtEntry, hf]

lemma builtEntry_contentType (mt up fp bs gbs) :
    (builtEntry mt up fp bs gbs).contentType = mt (goExt fp) := by
  cases hf : builtFlag mt fp bs <;> simp [builtEntry, hf]

lemma builtEntry_identityPayload (mt up fp bs gbs) :
    (builtEntry mt up fp bs gbs).identityPayload = bs := by
  cases hf : builtFlag mt fp bs <;> simp [builtEntry, hf]

lemma builtEntry_identitySize (mt up fp bs gbs) :
    (builtEntry mt up fp bs gbs).identitySize = (bs.length : Int) := by
  cases hf : builtFlag mt fp bs <;> simp [builtEntry, hf]

lemma builtEntry_compressedSize_of_flag (mt up fp bs gbs)
    (h : builtFlag mt fp bs = true) :
    (builtEntry mt up fp bs gbs).compressedSize = (gbs.length : Int) := by
  simp [builtEntry, h]

lemma builtEntry_shouldServe (mt up fp bs gbs) :
    (builtEntry mt up fp bs gbs).shouldServeCompressed = builtFlag mt fp bs := by
  cases hf : builtFlag mt fp bs <;> simp [builtEntry, hf]

lemma builtEntry_gzip_eq_flag (mt up fp bs gbs) :
    (builtEntry mt up fp bs gbs).gzipPayload.isSome
      = (builtEntry mt up fp bs gbs).shouldServeCompressed := by
  cases hf : builtFlag mt fp bs <;> simp [builtEntry, hf]

lemma builtEntry_gzipPayload_some (mt up fp bs gbs)
    (h : builtFlag mt fp bs = true) :
    (builtEntry mt up fp bs gbs).gzipPayload = some gbs := by
  simp [builtEntry, h]

lemma builtEntry_gzipPayload_none (mt up fp bs gbs)
    (h : builtFlag mt fp bs = false) :
    (builtEntry mt up fp bs gbs).gzipPayload = none := by
  simp [builtEntry, h]

/-- The comparison the source performs, with the stale `-1` on the right,
amounts to `1460 ≤ plain length`. -/
lemma stale_decision (n : Nat) :
    ((-1 : Int).tdiv tcpPacketDataSize < ((n : Int)).tdiv tcpPacketDataSize)
      ↔ 1460 ≤ n := by
  have h1 : (-1 : Int).tdiv tcpPacketDataSize = 0 := by decide
  have h2 : ((n : Int)).tdiv tcpPacketDataSize = ((n / 1460 : Nat) : Int) := rfl
  rw [h1, h2]
  omega

lemma builtFlag_eq (mt fp bs)
    (hct : contentTypeIsAlreadyCompressed (mt (goExt fp)) = false) :
    builtFlag mt fp bs = decide (1460 ≤ bs.length) := by
  simp only [builtFlag, hct, Bool.false_eq_true, if_false]
  exact decide_eq_decide.mpr (stale_decision bs.length)

/-! ### Serving lemmas -/

lemma serveEntry_status (ce : cacheEntry) (ae : Str) :
    (serveEntry ce ae).status = 200 := by
  unfold serveEntry
  cases ce.gzipPayload
  · rfl
  · dsimp only
    split <;> rfl

/-! ### Map lemmas -/

lemma mapGet_nil (k : Str) : mapGet [] k = none := rfl

lemma mapGet_cons (kv : Str × cacheEntry) (m : List (Str × cacheEntry)) (k : Str) :
    mapGet (kv :: m) k = if kv.1 = k then some kv.2 else mapGet m k := by
  by_cases h : kv.1 = k
  · rw [mapGet, List.find?_cons_of_pos _ (by simpa using h), if_pos h]
    rfl
  · rw [mapGet, List.find?_cons_of_neg _ (by simpa using h), if_neg h]
    rfl

lemma mapGet_mapSet_self (m : List (Str × cacheEntry)) (k : Str) (v : cacheEntry) :
    mapGet (mapSet m k v) k = some v := by
  induction m with
  | nil => simp [mapSet, mapGet_cons]
  | cons kv rest ih =>
    by_cases h : kv.1 = k
    · simp [mapSet, h, mapGet_cons]
    · simpa [mapSet, h, mapGet_cons] using ih

lemma mapGet_mapSet_ne (m : List (Str × cacheEntry)) (k : Str) (v : cacheEntry)
    (k' : Str) (h : k' ≠ k) :
    mapGet (mapSet m k v) k' = mapGet m k' := by
  induction m with
  | nil =>
    have hne : ¬ k = k' := fun hh => h hh.symm
    simp [mapSet, mapGet_cons, hne]
  | cons kv rest ih =>
    by_cases hk : kv.1 = k
    · subst hk
      have hne : ¬ kv.1 = k' := fun hh => h hh.symm
      simp [mapSet, mapGet_cons, hne]
    · simp only [mapSet, if_neg hk, mapGet_cons, ih]

lemma mapGet_mapSet_isSome (m : List (Str × cacheEntry)) (k : Str) (v : cacheEntry)
    (k' : Str) :
    (mapGet (mapSet m k v) k').isSome ↔ (k' = k ∨ (mapGet m k').isSome) := by
  by_cases h : k' = k
  · subst h
    simp [mapGet_mapSet_self]
  · rw [mapGet_mapSet_ne m k v k' h]
    simp [h]

lemma mapGet_foldl_isSome (l : List cacheEntry) (m : List (Str × cacheEntry)) (k : Str) :
    (mapGet (l.foldl (fun m e => mapSet m e.urlpath e) m) k).isSome
      ↔ ((mapGet m k).isSome ∨ ∃ ce ∈ l, ce.urlpath = k) := by
  induction l generalizing m with
  | nil => simp
  | cons ce rest ih =>
    rw [List.foldl_cons, ih, mapGet_mapSet_isSome]
    constructor
    · rintro (⟨h | h⟩ | h)
      · exact Or.inr ⟨ce, List.mem_cons_self ce rest, h.symm⟩
      · exact Or.inl h
      · obtain ⟨ce', hm, hu⟩ := h
        exact Or.inr ⟨ce', List.mem_cons_of_mem ce hm, hu⟩
    · rintro (h | ⟨ce', hm, hu⟩)
      · exact Or.inl (Or.inr h)
      · rcases List.mem_cons.mp hm with rfl | hm'
        · exact Or.inl (Or.inl hu.symm)
        · exact Or.inr ⟨ce', hm', hu⟩

/-- `/index.html` is a key of the built map iff some cache record carries it
as url path. -/
lemma mapGet_buildCacheMap_isSome (l : List cacheEntry) (k : Str) :
    (mapGet (buildCacheMap l) k).isSome ↔ ∃ ce ∈ l, ce.urlpath = k := by
  rw [buildCacheMap, mapGet_foldl_isSome]
  simp [mapGet]

/-- Computation rule for `newHandler` on a readable root directory. -/
lemma newHandler_eq (mt : Str → Str) (gz : Bytes → Except Str Bytes)
    (dirPath rname : Str) (es : List FsEntry) :
    newHandler mt gz dirPath (.dir rname es) =
      match appendDirEntries mt gz [] (str "/") dirPath es with
      | .error e => .error e
      | .ok cache =>
        if (mapGet (buildCacheMap cache) defaultWebpath).isSome
        then .ok { cache := buildCacheMap cache }
        else .error (str "spa: root /index.html not found") := by
  cases h : appendDirEntries mt gz [] (str "/") dirPath es <;>
    simp only [newHandler, bind, Except.bind, h]

lemma serveEntry_some (ce : cacheEntry) (ae : Str) (gbs : Bytes)
    (h : ce.gzipPayload = some gbs) :
    serveEntry ce ae =
      if goContains ae (str "gzip") then gzipResponse ce gbs
      else identityResponse ce := by
  simp only [serveEntry, h]

lemma serveEntry_none (ce : cacheEntry) (ae : Str)
    (h : ce.gzipPayload = none) :
    serveEntry ce ae = identityResponse ce := by
  simp only [serveEntry, h]

/-- Computation rule for `serveHTTP` when the cleaned path hits the cache. -/
lemma serveHTTP_hit (h : handler) (p ae : Str) (ce : cacheEntry)
    (hhit : mapGet h.cache (goClean (if (str "/").isPrefixOf p then p else '/' :: p))
      = some ce) :
    serveHTTP h p ae = serveEntry ce ae := by
  simp only [serveHTTP, hhit]

/-- Computation rule for `serveHTTP` when the cleaned path misses and the
fallback document is present. -/
lemma serveHTTP_miss (h : handler) (p ae : Str) (idx : cacheEntry)
    (hmiss : mapGet h.cache (goClean (if (str "/").isPrefixOf p then p else '/' :: p))
      = none)
    (hidx : mapGet h.cache defaultWebpath = some idx) :
    serveHTTP h p ae = serveEntry idx ae := by
  simp only [serveHTTP, hmiss, hidx]

/-! ### Path algebra for the cache keys -/

lemma validSeg_ne_dot {s : Str} (h : validSeg s) : s ≠ ['.'] := by
  intro hh
  rw [hh] at h
  exact h.2.2 rfl

lemma validSeg_ne_dotdot {s : Str} (h : validSeg s) : s ≠ ['.', '.'] := by
  intro hh
  rw [hh] at h
  exact h.2.2 rfl

lemma cleanStep_valid (rooted : Bool) (out : List Str) {seg : Str} (h : validSeg seg) :
    cleanStep rooted out seg = out ++ [seg] := by
  rw [cleanStep, if_neg, if_neg]
  · exact validSeg_ne_dotdot h
  · rintro (h1 | h2)
    · exact h.1 h1
    · exact validSeg_ne_dot h h2

lemma cleanStep_empty (rooted : Bool) (out : List Str) :
    cleanStep rooted out [] = out := by
  rw [cleanStep, if_pos (Or.inl rfl)]

lemma cleanSegs_valid (rooted : Bool) :
    ∀ (segs : List Str) (out : List Str),
    (∀ s ∈ segs, s = [] ∨ validSeg s) →
    cleanSegs rooted out segs = out ++ segs.filter (fun s => decide (s ≠ []))
  | [], out, _ => by simp [cleanSegs]
  | seg :: rest, out, h => by
    rcases h seg (List.mem_cons_self _ _) with hemp | hval
    · rw [hemp, cleanSegs, cleanStep_empty,
        cleanSegs_valid rooted rest out (fun s hs => h s (List.mem_cons_of_mem _ hs))]
      simp
    · rw [cleanSegs, cleanStep_valid rooted out hval,
        cleanSegs_valid rooted rest (out ++ [seg])
          (fun s hs => h s (List.mem_cons_of_mem _ hs))]
      simp [List.filter_cons, hval.1]

lemma splitOn_slash_cons (s : Str) :
    ('/' :: s).splitOn '/' = [] :: s.splitOn '/' := by
  simp [List.splitOn, List.splitOnP_cons]

/-- Cleaning a rooted path whose elements are all well-formed or empty keeps
exactly the nonempty elements. -/
lemma goClean_slash_intercalate (parts : List Str)
    (hparts : ∀ s ∈ parts, s = [] ∨ validSeg s)
    (hfil : parts.filter (fun s => decide (s ≠ [])) ≠ []) :
    goClean ('/' :: List.intercalate ['/'] parts)
      = '/' :: List.intercalate ['/'] (parts.filter (fun s => decide (s ≠ []))) := by
  have hne : parts ≠ [] := by
    intro hh
    rw [hh] at hfil
    simp at hfil
  have hnoslash : ∀ l ∈ parts, '/' ∉ l := by
    intro l hl
    rcases hparts l hl with rfl | hv
    · simp
    · exact hv.2.1
  have hsplit : ('/' :: List.intercalate ['/'] parts).splitOn '/' = [] :: parts := by
    rw [splitOn_slash_cons, List.splitOn_intercalate parts '/' hnoslash hne]
  have hparts' : ∀ s ∈ ([] :: parts : List Str), s = [] ∨ validSeg s := by
    intro s hs
    rcases List.mem_cons.mp hs with rfl | hs'
    · exact Or.inl rfl
    · exact hparts s hs'
  have hcs : cleanSegs true [] (('/' :: List.intercalate ['/'] parts).splitOn '/')
      = parts.filter (fun s => decide (s ≠ [])) := by
    rw [hsplit, cleanSegs_valid true ([] :: parts) [] hparts']
    simp [List.filter_cons]
  simp only [goClean, List.head?_cons, reduceCtorEq, ite_false, List.cons_ne_nil,
    Option.some.injEq, if_false]
  rw [show decide True = true from rfl, hcs, if_neg hfil, if_pos trivial]
  rfl

lemma intercalate_append_singleton : ∀ (xs : List Str) (y : Str), xs ≠ [] →
    List.intercalate ['/'] (xs ++ [y]) = List.intercalate ['/'] xs ++ '/' :: y
  | [], _, h => absurd rfl h
  | [a], y, _ => by simp [List.intercalate, List.intersperse]
  | a :: b :: rest, y, _ => by
    have ih := intercalate_append_singleton (b :: rest) y (by simp)
    simp only [List.intercalate] at ih ⊢
    simp only [List.cons_append, List.intersperse_cons_cons, List.flatten_cons,
      List.append_assoc] at ih ⊢
    rw [ih]

/-- `path.Join` of a rooted url path and a well-formed entry name appends one
path segment. -/
lemma goJoin_rootedPath (pre : List Str) (n : Str)
    (hpre : ∀ s ∈ pre, validSeg s) (hn : validSeg n) :
    goJoin (rootedPath pre) n = rootedPath (pre ++ [n]) := by
  have hroot_ne : rootedPath pre ≠ [] := by simp [rootedPath]
  rw [goJoin, if_neg (fun hh => hroot_ne hh.1), if_neg hroot_ne]
  cases hpre0 : pre with
  | nil =>
    have h1 : rootedPath [] ++ '/' :: n = '/' :: List.intercalate ['/'] [[], n] := by
      simp [rootedPath, List.intercalate, List.intersperse]
    rw [h1, goClean_slash_intercalate [[], n]
      (by
        intro s hs
        rcases List.mem_cons.mp hs with rfl | hs'
        · exact Or.inl rfl
        · rw [List.mem_singleton.mp hs']
          exact Or.inr hn)
      (by simp [hn.1])]
    simp [rootedPath, hn.1]
  | cons a rest =>
    rw [← hpre0]
    have hpre_ne : pre ≠ [] := by rw [hpre0]; simp
    have h1 : rootedPath pre ++ '/' :: n = '/' :: List.intercalate ['/'] (pre ++ [n]) := by
      rw [rootedPath, intercalate_append_singleton pre n hpre_ne]
      rfl
    rw [h1, goClean_slash_intercalate (pre ++ [n]) ?hv ?hf]
    case hv =>
      intro s hs
      rcases List.mem_append.mp hs with hs' | hs'
      · exact Or.inr (hpre s hs')
      · rw [List.mem_singleton.mp hs']
        exact Or.inr hn
    case hf =>
      have : (pre ++ [n]).filter (fun s => decide (s ≠ [])) = pre ++ [n] := by
        rw [List.filter_eq_self]
        intro s hs
        rcases List.mem_append.mp hs with hs' | hs'
        · simp [(hpre s hs').1]
        · rw [List.mem_singleton.mp hs']
          simp [hn.1]
      rw [this]
      simp
    have : (pre ++ [n]).filter (fun s => decide (s ≠ [])) = pre ++ [n] := by
      rw [List.filter_eq_self]
      intro s hs
      rcases List.mem_append.mp hs with hs' | hs'
      · simp [(hpre s hs').1]
      · rw [List.mem_singleton.mp hs']
        simp [hn.1]
    rw [this, rootedPath]

/-- A name that survives the hidden-entry check is a well-formed path
segment. -/
lemma validSeg_of_not_skip (n : Str) (hg : goodName n) (hs : skipName n = false) :
    validSeg n := by
  obtain ⟨hne, hsl⟩ := hg
  refine ⟨hne, hsl, ?_⟩
  cases n with
  | nil => exact absurd rfl hne
  | cons c t =>
    simp only [List.head?_cons, ne_eq, Option.some.injEq]
    intro hc
    rw [hc] at hs
    simp [skipName, str, List.isPrefixOf] at hs

/-! ### The cache keys are the published relative paths -/

mutual

theorem appendEntry_keys (mt : Str → Str) (gz : Bytes → Except Str Bytes) :
    ∀ (e : FsEntry) (slice : List cacheEntry) (pre : List Str) (fpath : Str)
      (cache : List cacheEntry),
      goodNames e → (∀ s ∈ pre, validSeg s) →
      appendEntry mt gz slice (rootedPath pre) fpath e = .ok cache →
      cache.map (fun ce => ce.urlpath)
        = slice.map (fun ce => ce.urlpath) ++ (publishedPaths pre e).map rootedPath
  | .file n content, slice, pre, fpath, cache => by
    intro hg hpre hok
    by_cases hskip : skipName n
    · simp only [appendEntry, hskip, if_true] at hok
      obtain rfl := Except.ok.inj hok
      simp [publishedPaths, hskip]
    · simp only [appendEntry, hskip, Bool.false_eq_true, if_false] at hok
      cases content with
      | error e0 =>
        rw [appendFileEntry_err] at hok
        exact absurd hok (by simp)
      | ok bs =>
        rw [appendFileEntry_eq] at hok
        cases hgz : gz bs with
        | error e0 =>
          rw [hgz] at hok
          exact absurd hok (by simp)
        | ok gbs =>
          rw [hgz] at hok
          obtain rfl := Except.ok.inj hok
          have hjoin := goJoin_rootedPath pre n hpre
            (validSeg_of_not_skip n hg (Bool.not_eq_true _ ▸ hskip))
          simp [publishedPaths, hskip, builtEntry_urlpath, hjoin]
  | .dir n entries, slice, pre, fpath, cache => by
    intro hg hpre hok
    by_cases hskip : skipName n
    · simp only [appendEntry, hskip, if_true] at hok
      obtain rfl := Except.ok.inj hok
      simp [publishedPaths, hskip]
    · simp only [appendEntry, hskip, Bool.false_eq_true, if_false] at hok
      have hvn := validSeg_of_not_skip n hg.1 (Bool.not_eq_true _ ▸ hskip)
      rw [goJoin_rootedPath pre n hpre hvn] at hok
      have hrec := appendDirEntries_keys mt gz entries slice (pre ++ [n])
        (goJoin fpath n) cache hg.2
        (by
          intro s hs
          rcases List.mem_append.mp hs with hs' | hs'
          · exact hpre s hs'
          · rw [List.mem_singleton.mp hs']
            exact hvn)
        hok
      simp only [publishedPaths, hskip, Bool.false_eq_true, if_false]
      exact hrec
  | .badDir n err, slice, pre, fpath, cache => by
    intro hg hpre hok
    by_cases hskip : skipName n
    · simp only [appendEntry, hskip, if_true] at hok
      obtain rfl := Except.ok.inj hok
      simp [publishedPaths, hskip]
    · simp only [appendEntry, hskip, Bool.false_eq_true, if_false] at hok
      exact absurd hok (by simp)

theorem appendDirEntries_keys (mt : Str → Str) (gz : Bytes → Except Str Bytes) :
    ∀ (es : List FsEntry) (slice : List cacheEntry) (pre : List Str) (fpath : Str)
      (cache : List cacheEntry),
      goodNamesList es → (∀ s ∈ pre, validSeg s) →
      appendDirEntries mt gz slice (rootedPath pre) fpath es = .ok cache →
      cache.map (fun ce => ce.urlpath)
        = slice.map (fun ce => ce.urlpath) ++ (publishedPathsList pre es).map rootedPath
  | [], slice, pre, fpath, cache => by
    intro _ _ hok
    simp only [appendDirEntries] at hok
    obtain rfl := Except.ok.inj hok
    simp [publishedPathsList]
  | e :: rest, slice, pre, fpath, cache => by
    intro hg hpre hok
    cases hmid : appendEntry mt gz slice (rootedPath pre) fpath e with
    | error e0 =>
      simp only [appendDirEntries, bind, Except.bind, hmid] at hok
      exact absurd hok (by simp)
    | ok mid =>
      simp only [appendDirEntries, bind, Except.bind, hmid] at hok
      have h1 := appendEntry_keys mt gz e slice pre fpath mid hg.1 hpre hmid
      have h2 := appendDirEntries_keys mt gz rest mid pre fpath cache hg.2 hpre hok
      rw [h2, h1, publishedPathsList]
      simp [List.append_assoc]

end

/-! ### Uniqueness of the published paths -/

mutual

theorem publishedPaths_shape :
    ∀ (e : FsEntry) (pre : List Str) (q : List Str),
      q ∈ publishedPaths pre e → ∃ t, q = (pre ++ [e.name]) ++ t
  | .file n content, pre, q => by
    intro hq
    by_cases hskip : skipName n
    · simp [publishedPaths, hskip] at hq
    · simp only [publishedPaths, hskip, Bool.false_eq_true, if_false,
        List.mem_singleton] at hq
      exact ⟨[], by simp [hq, FsEntry.name]⟩
  | .dir n entries, pre, q => by
    intro hq
    by_cases hskip : skipName n
    · simp [publishedPaths, hskip] at hq
    · simp only [publishedPaths, hskip, Bool.false_eq_true, if_false] at hq
      obtain ⟨e', _, t, ht⟩ := publishedPathsList_shape entries (pre ++ [n]) q hq
      exact ⟨[e'.name] ++ t, by simp [ht, FsEntry.name, List.append_assoc]⟩
  | .badDir n err, pre, q => by
    intro hq
    simp [publishedPaths] at hq

theorem publishedPathsList_shape :
    ∀ (es : List FsEntry) (pre : List Str) (q : List Str),
      q ∈ publishedPathsList pre es → ∃ e ∈ es, ∃ t, q = (pre ++ [e.name]) ++ t
  | [], pre, q => by
    intro hq
    simp [publishedPathsList] at hq
  | e :: rest, pre, q => by
    intro hq
    rw [publishedPathsList] at hq
    rcases List.mem_append.mp hq with hq' | hq'
    · obtain ⟨t, ht⟩ := publishedPaths_shape e pre q hq'
      exact ⟨e, List.mem_cons_self _ _, t, ht⟩
    · obtain ⟨e', he', t, ht⟩ := publishedPathsList_shape rest pre q hq'
      exact ⟨e', List.mem_cons_of_mem _ he', t, ht⟩

end

mutual

theorem publishedPaths_nodup :
    ∀ (e : FsEntry) (pre : List Str), nodupNames e → (publishedPaths pre e).Nodup
  | .file n content, pre => by
    intro _
    by_cases hskip : skipName n <;> simp [publishedPaths, hskip]
  | .dir n entries, pre => by
    intro hnd
    by_cases hskip : skipName n
    · simp [publishedPaths, hskip]
    · simp only [publishedPaths, hskip, Bool.false_eq_true, if_false]
      exact publishedPathsList_nodup entries (pre ++ [n]) hnd.1 hnd.2
  | .badDir n err, pre => by
    intro _
    simp [publishedPaths]

theorem publishedPathsList_nodup :
    ∀ (es : List FsEntry) (pre : List Str),
      (es.map FsEntry.name).Nodup → nodupNamesList es →
      (publishedPathsList pre es).Nodup
  | [], pre => by
    intro _ _
    simp [publishedPathsList]
  | e :: rest, pre => by
    intro hmap hnd
    rw [publishedPathsList, List.nodup_append]
    simp only [List.map_cons, List.nodup_cons] at hmap
    refine ⟨publishedPaths_nodup e pre hnd.1,
      publishedPathsList_nodup rest pre hmap.2 hnd.2, ?_⟩
    intro q hq1 hq2
    obtain ⟨t1, ht1⟩ := publishedPaths_shape e pre q hq1
    obtain ⟨e', he', t2, ht2⟩ := publishedPathsList_shape rest pre q hq2
    have hname : FsEntry.name e = FsEntry.name e' := by
      rw [ht1] at ht2
      simp only [List.append_assoc, List.cons_append, List.nil_append,
        List.append_cancel_left_eq, List.cons.injEq] at ht2
      exact ht2.1
    exact hmap.1 (hname ▸ List.mem_map_of_mem FsEntry.name he')

end

mutual

theorem publishedPaths_segs :
    ∀ (e : FsEntry) (pre : List Str) (q : List Str),
      goodNames e → (∀ s ∈ pre, '/' ∉ s) → q ∈ publishedPaths pre e →
      (∀ s ∈ q, '/' ∉ s) ∧ q ≠ []
  | .file n content, pre, q => by
    intro hg hpre hq
    by_cases hskip : skipName n
    · simp [publishedPaths, hskip] at hq
    · simp only [publishedPaths, hskip, Bool.false_eq_true, if_false,
        List.mem_singleton] at hq
      subst hq
      refine ⟨?_, by simp⟩
      intro s hs
      rcases List.mem_append.mp hs with hs' | hs'
      · exact hpre s hs'
      · rw [List.mem_singleton.mp hs']
        exact hg.2
  | .dir n entries, pre, q => by
    intro hg hpre hq
    by_cases hskip : skipName n
    · simp [publishedPaths, hskip] at hq
    · simp only [publishedPaths, hskip, Bool.false_eq_true, if_false] at hq
      exact publishedPathsList_segs entries (pre ++ [n]) q hg.2
        (by
          intro s hs
          rcases List.mem_append.mp hs with hs' | hs'
          · exact hpre s hs'
          · rw [List.mem_singleton.mp hs']
            exact hg.1.2)
        hq
  | .badDir n err, pre, q => by
    intro _ _ hq
    simp [publishedPaths] at hq

theorem publishedPathsList_segs :
    ∀ (es : List FsEntry) (pre : List Str) (q : List Str),
      goodNamesList es → (∀ s ∈ pre, '/' ∉ s) → q ∈ publishedPathsList pre es →
      (∀ s ∈ q, '/' ∉ s) ∧ q ≠ []
  | [], pre, q => by
    intro _ _ hq
    simp [publishedPathsList] at hq
  | e :: rest, pre, q => by
    intro hg hpre hq
    rw [publishedPathsList] at hq
    rcases List.mem_append.mp hq with hq' | hq'
    · exact publishedPaths_segs e pre q hg.1 hpre hq'
    · exact publishedPathsList_segs rest pre q hg.2 hpre hq'

end

lemma countP_eq_one_of_mem_nodup {l : List Str} {a : Str} (d : l.Nodup) (h : a ∈ l) :
    l.countP (fun x => decide (x = a)) = 1 := by
  induction l with
  | nil => simp at h
  | cons b rest ih =>
    rw [List.countP_cons]
    rcases List.mem_cons.mp h with rfl | hmem
    · have hnm : a ∉ rest := (List.nodup_cons.mp d).1
      have hz : rest.countP (fun x => decide (x = a)) = 0 := by
        rw [List.countP_eq_zero]
        intro x hx hxb
        exact hnm ((of_decide_eq_true hxb) ▸ hx)
      simp [hz]
    · have hne : ¬ (b = a) := by
        rintro rfl
        exact (List.nodup_cons.mp d).1 hmem
      rw [ih (List.nodup_cons.mp d).2 hmem]
      simp [hne]

/-- `rootedPath` is injective on nonempty lists of slash-free segments. -/
lemma rootedPath_inj (q1 q2 : List Str)
    (h1 : ∀ s ∈ q1, '/' ∉ s) (hne1 : q1 ≠ [])
    (h2 : ∀ s ∈ q2, '/' ∉ s) (hne2 : q2 ≠ [])
    (heq : rootedPath q1 = rootedPath q2) : q1 = q2 := by
  have e1 := List.splitOn_intercalate q1 '/' h1 hne1
  have e2 := List.splitOn_intercalate q2 '/' h2 hne2
  rw [rootedPath, rootedPath] at heq
  rw [← e1, ← e2, (List.cons.inj heq).2]

/-! ### Error propagation through the walk -/

mutual

theorem appendEntry_firstError (gz : Bytes → Except Str Bytes) :
    ∀ (e : FsEntry) (mt : Str → Str) (slice : List cacheEntry) (up fp : Str),
    (∀ err, firstError gz e = some err → appendEntry mt gz slice up fp e = .error err)
      ∧ (firstError gz e = none → ∃ out, appendEntry mt gz slice up fp e = .ok out)
  | .file n content, mt, slice, up, fp => by
    by_cases hskip : skipName n
    · refine ⟨fun err hfe => ?_, fun _ => ⟨slice, by simp [appendEntry, hskip]⟩⟩
      simp [firstError, hskip] at hfe
    · cases content with
      | error e =>
        refine ⟨fun err hfe => ?_, fun hfe => ?_⟩
        · simp only [firstError, hskip, if_false, Bool.false_eq_true] at hfe
          obtain rfl := Option.some.inj hfe
          simp [appendEntry, hskip, appendFileEntry_err]
        · simp [firstError, hskip] at hfe
      | ok bs =>
        cases hgz : gz bs with
        | error e =>
          refine ⟨fun err hfe => ?_, fun hfe => ?_⟩
          · simp only [firstError, hskip, if_false, Bool.false_eq_true, hgz] at hfe
            obtain rfl := Option.some.inj hfe
            simp [appendEntry, hskip, appendFileEntry_eq, hgz]
          · simp [firstError, hskip, hgz] at hfe
        | ok gbs =>
          refine ⟨fun err hfe => ?_, fun _ => ?_⟩
          · simp [firstError, hskip, hgz] at hfe
          · exact ⟨slice ++ [builtEntry mt (goJoin up n) (goJoin fp n) bs gbs],
              by simp [appendEntry, hskip, appendFileEntry_eq, hgz]⟩
  | .dir n entries, mt, slice, up, fp => by
    by_cases hskip : skipName n
    · refine ⟨fun err hfe => ?_, fun _ => ⟨slice, by simp [appendEntry, hskip]⟩⟩
      simp [firstError, hskip] at hfe
    · have ih := appendDirEntries_firstError gz entries mt slice (goJoin up n) (goJoin fp n)
      refine ⟨fun err hfe => ?_, fun hfe => ?_⟩
      · simp only [firstError, hskip, if_false, Bool.false_eq_true] at hfe
        simp only [appendEntry, hskip, if_false, Bool.false_eq_true]
        exact ih.1 err hfe
      · simp only [firstError, hskip, if_false, Bool.false_eq_true] at hfe
        simp only [appendEntry, hskip, if_false, Bool.false_eq_true]
        exact ih.2 hfe
  | .badDir n err0, mt, slice, up, fp => by
    by_cases hskip : skipName n
    · refine ⟨fun err hfe => ?_, fun _ => ⟨slice, by simp [appendEntry, hskip]⟩⟩
      simp [firstError, hskip] at hfe
    · refine ⟨fun err hfe => ?_, fun hfe => ?_⟩
      · simp only [firstError, hskip, if_false, Bool.false_eq_true] at hfe
        obtain rfl := Option.some.inj hfe
        simp [appendEntry, hskip]
      · simp [firstError, hskip] at hfe

theorem appendDirEntries_firstError (gz : Bytes → Except Str Bytes) :
    ∀ (es : List FsEntry) (mt : Str → Str) (slice : List cacheEntry) (up fp : Str),
    (∀ err, firstErrorList gz es = some err →
        appendDirEntries mt gz slice up fp es = .error err)
      ∧ (firstErrorList gz es = none →
          ∃ out, appendDirEntries mt gz slice up fp es = .ok out)
  | [], mt, slice, up, fp => by
    exact ⟨fun err hfe => by simp [firstErrorList] at hfe,
      fun _ => ⟨slice, by simp [appendDirEntries]⟩⟩
  | e :: rest, mt, slice, up, fp => by
    have ihe := appendEntry_firstError gz e mt slice up fp
    refine ⟨fun err hfe => ?_, fun hfe => ?_⟩
    · cases hfee : firstError gz e with
      | some err0 =>
        simp only [firstErrorList, hfee] at hfe
        obtain rfl := Option.some.inj hfe
        have h1 := ihe.1 err0 hfee
        simp [appendDirEntries, bind, Except.bind, h1]
      | none =>
        simp only [firstErrorList, hfee] at hfe
        obtain ⟨out, hout⟩ := ihe.2 hfee
        have ihr := appendDirEntries_firstError gz rest mt out up fp
        have h1 := ihr.1 err hfe
        simp [appendDirEntries, bind, Except.bind, hout, h1]
    · cases hfee : firstError gz e with
      | some err0 => simp [firstErrorList, hfee] at hfe
      | none =>
        simp only [firstErrorList, hfee] at hfe
        obtain ⟨out, hout⟩ := ihe.2 hfee
        have ihr := appendDirEntries_firstError gz rest mt out up fp
        obtain ⟨out2, hout2⟩ := ihr.2 hfe
        exact ⟨out2, by simp [appendDirEntries, bind, Except.bind, hout, hout2]⟩

end

/-! ### Claims -/

/-- **C1**: the claim states that `shouldCompress` is true iff
`plainSize div 1460 > compressedSize div 1460` (with `compressedSize` the
gzip-compressed length) and the content type is not pre-compressed.  The code
violates this: it compares against the stale `compressedSize` field (still
`-1`).  Failing input: a 3000-byte file whose compressed form is 3001 bytes —
both occupy 2 packets, so the specified formula says "do not compress", yet
the built record has `shouldServeCompressed = true`. -/
theorem C1_code_contradicts_spec_formula :
    ∃ ce, appendFileEntry mtW gzW [] (str "/a.bin") (str "/a.bin")
        (.ok (List.replicate 3000 0)) = .ok [ce]
      ∧ ce.shouldServeCompressed = true
      ∧ ce.identitySize = 3000 ∧ ce.compressedSize = 3001
      ∧ specShouldCompress ce.identitySize ce.compressedSize ce.contentType = false := by
  have hct : contentTypeIsAlreadyCompressed (mtW (goExt (str "/a.bin"))) = false := by decide
  have hflag : builtFlag mtW (str "/a.bin") (List.replicate 3000 0) = true := by
    rw [builtFlag_eq _ _ _ hct]
    simp
  refine ⟨builtEntry mtW (str "/a.bin") (str "/a.bin") (List.replicate 3000 0)
      (0 :: List.replicate 3000 0), ?_, ?_, ?_, ?_, ?_⟩
  · rw [appendFileEntry_eq]
    rfl
  · rw [builtEntry_shouldServe, hflag]
  · rw [builtEntry_identitySize]
    simp
  · rw [builtEntry_compressedSize_of_flag _ _ _ _ _ hflag]
    simp
  · rw [builtEntry_identitySize, builtEntry_compressedSize_of_flag _ _ _ _ _ hflag,
      builtEntry_contentType]
    simp only [List.length_replicate, List.length_cons]
    decide

/-- **C2**: in the built cache, for a record whose content type is not in the
pre-compressed set, `shouldServeCompressed` is true iff the plain payload is
at least 1460 bytes long, independently of the gzip output (the comparison
reads the stale `compressedSize` field, whose `-1` divides to `0`). -/
theorem C2_stale_compression_decision (mt : Str → Str) (gz : Bytes → Except Str Bytes)
    (slice : List cacheEntry) (up fp : Str) (bs : Bytes) (res : List cacheEntry)
    (hok : appendFileEntry mt gz slice up fp (.ok bs) = .ok res)
    (hct : contentTypeIsAlreadyCompressed (mt (goExt fp)) = false) :
    ∃ ce, res = slice ++ [ce]
      ∧ ce.shouldServeCompressed = decide (1460 ≤ bs.length) := by
  rw [appendFileEntry_eq] at hok
  cases h : gz bs with
  | error e => rw [h] at hok; exact absurd hok (by simp)
  | ok gbs =>
    rw [h] at hok
    refine ⟨builtEntry mt up fp bs gbs, (Except.ok.inj hok).symm, ?_⟩
    rw [builtEntry_shouldServe, builtFlag_eq mt fp bs hct]

/-- Witness for C2, at the one-byte extensionless file `[65]`. -/
theorem C2_stale_compression_decision_witness :
    ∃ ce, [builtEntry mtW (str "/f") (str "/f") [65] [0, 65]] = [] ++ [ce]
      ∧ ce.shouldServeCompressed = decide (1460 ≤ ([65] : Bytes).length) :=
  C2_stale_compression_decision mtW gzW [] (str "/f") (str "/f") [65]
    [builtEntry mtW (str "/f") (str "/f") [65] [0, 65]] (by rfl) (by decide)

/-- **C9** (counterexample): the claim says a record with empty content type is
served *without* a Content-Type header; in fact both serving closures add the
header unconditionally, so the response for an extensionless file carries an
empty-valued Content-Type header. -/
theorem C9_counterexample :
    ∃ ce, appendFileEntry mtW gzW [] (str "/noext") (str "/noext") (.ok [65]) = .ok [ce]
      ∧ ce.contentType = []
      ∧ (str "Content-Type", []) ∈ (serveEntry ce []).headers := by
  refine ⟨builtEntry mtW (str "/noext") (str "/noext") [65] (0 :: [65]), by rfl, by decide, ?_⟩
  decide

/-- **C9** (amended): the serving logic always adds a `Content-Type` header
carrying the record's content type, including when that content type is empty;
a file with an unresolved extension is still served. -/
theorem C9_content_type_always_added (ce : cacheEntry) (ae : Str) :
    (str "Content-Type", ce.contentType) ∈ (serveEntry ce ae).headers := by
  unfold serveEntry
  cases ce.gzipPayload
  · simp [identityResponse]
  · dsimp only
    split
    · simp [gzipResponse]
    · simp [identityResponse]

/-- **C3**: handler construction succeeds and returns a handler iff, after the
full directory walk, `/index.html` is present among the cached url paths; when
it is absent, construction returns an error and no handler. -/
theorem C3_index_html_required (mt : Str → Str) (gz : Bytes → Except Str Bytes)
    (dirPath rname : Str) (es : List FsEntry) (cache : List cacheEntry)
    (hwalk : appendDirEntries mt gz [] (str "/") dirPath es = .ok cache) :
    ((∃ h, newHandler mt gz dirPath (.dir rname es) = .ok h)
      ↔ ∃ ce ∈ cache, ce.urlpath = defaultWebpath)
    ∧ ((¬ ∃ ce ∈ cache, ce.urlpath = defaultWebpath) →
        newHandler mt gz dirPath (.dir rname es)
          = .error (str "spa: root /index.html not found")) := by
  have heq : newHandler mt gz dirPath (.dir rname es)
      = if (mapGet (buildCacheMap cache) defaultWebpath).isSome
        then .ok { cache := buildCacheMap cache }
        else .error (str "spa: root /index.html not found") := by
    rw [newHandler_eq, hwalk]
  by_cases hp : (mapGet (buildCacheMap cache) defaultWebpath).isSome
  · rw [if_pos hp] at heq
    exact ⟨⟨fun _ => (mapGet_buildCacheMap_isSome cache defaultWebpath).mp hp,
        fun _ => ⟨_, heq⟩⟩,
      fun hn => absurd ((mapGet_buildCacheMap_isSome cache defaultWebpath).mp hp) hn⟩
  · rw [if_neg hp] at heq
    refine ⟨⟨?_, ?_⟩, fun _ => heq⟩
    · rintro ⟨h, hok⟩
      rw [heq] at hok
      exact absurd hok (by simp)
    · intro hmem
      exact absurd ((mapGet_buildCacheMap_isSome cache defaultWebpath).mpr hmem) hp

/-- Witness for C3: the one-file tree `esW` produces `cacheW`, whose only url
path is `/index.html`, so construction succeeds. -/
theorem C3_index_html_required_witness :
    ((∃ h, newHandler mtW gzW (str "/r") (.dir (str "r") esW) = .ok h)
      ↔ ∃ ce ∈ cacheW, ce.urlpath = defaultWebpath)
    ∧ ((¬ ∃ ce ∈ cacheW, ce.urlpath = defaultWebpath) →
        newHandler mtW gzW (str "/r") (.dir (str "r") esW)
          = .error (str "spa: root /index.html not found")) :=
  C3_index_html_required mtW gzW (str "/r") (str "r") esW cacheW rfl

/-- **C4**: a request whose normalized path is not a cache key is served from
the `/index.html` record, with success status. -/
theorem C4_spa_fallback (h : handler) (p ae : Str) (idx : cacheEntry)
    (hmiss : mapGet h.cache (goClean (if (str "/").isPrefixOf p then p else '/' :: p))
      = none)
    (hidx : mapGet h.cache defaultWebpath = some idx) :
    serveHTTP h p ae = serveEntry idx ae ∧ (serveHTTP h p ae).status = 200 := by
  have heq := serveHTTP_miss h p ae idx hmiss hidx
  exact ⟨heq, heq ▸ serveEntry_status idx ae⟩

/-- Witness for C4: requesting `/does/not/exist` against the one-record
handler `hW` serves the `/index.html` record. -/
theorem C4_spa_fallback_witness :
    serveHTTP hW (str "/does/not/exist") [] = serveEntry ceIdxW []
      ∧ (serveHTTP hW (str "/does/not/exist") []).status = 200 :=
  C4_spa_fallback hW (str "/does/not/exist") [] ceIdxW (by decide) (by decide)

/-- **C5**: for a record built by `appendFileEntry`, the compressed handler is
available exactly when `shouldServeCompressed` is true, and the compressed
representation is served iff it is available and the Accept-Encoding value
contains the substring `gzip`; the compressed response carries a
`Content-Encoding: gzip` header and the compressed payload, the plain response
carries the plain payload and no `Content-Encoding` header. -/
theorem C5_encoding_negotiation (mt : Str → Str) (gz : Bytes → Except Str Bytes)
    (slice : List cacheEntry) (up fp : Str) (bs : Bytes) (res : List cacheEntry)
    (ae : Str)
    (hok : appendFileEntry mt gz slice up fp (.ok bs) = .ok res) :
    ∃ ce, res = slice ++ [ce]
      ∧ ce.gzipPayload.isSome = ce.shouldServeCompressed
      ∧ (∀ gbs, ce.gzipPayload = some gbs → goContains ae (str "gzip") = true →
          serveEntry ce ae = gzipResponse ce gbs
          ∧ (str "Content-Encoding", str "gzip") ∈ (serveEntry ce ae).headers
          ∧ (serveEntry ce ae).body = gbs)
      ∧ ((ce.shouldServeCompressed = false ∨ goContains ae (str "gzip") = false) →
          serveEntry ce ae = identityResponse ce
          ∧ (serveEntry ce ae).body = ce.identityPayload
          ∧ ∀ v, (str "Content-Encoding", v) ∉ (serveEntry ce ae).headers) := by
  rw [appendFileEntry_eq] at hok
  cases hgz : gz bs with
  | error e => rw [hgz] at hok; exact absurd hok (by simp)
  | ok gbs0 =>
    rw [hgz] at hok
    refine ⟨builtEntry mt up fp bs gbs0, (Except.ok.inj hok).symm,
      builtEntry_gzip_eq_flag mt up fp bs gbs0, ?_, ?_⟩
    · intro gbs hsome hcontains
      have h1 := serveEntry_some (builtEntry mt up fp bs gbs0) ae gbs hsome
      rw [if_pos hcontains] at h1
      refine ⟨h1, ?_, ?_⟩
      · rw [h1]
        simp [gzipResponse]
      · rw [h1]
        rfl
    · intro hneg
      have hnone : serveEntry (builtEntry mt up fp bs gbs0) ae
          = identityResponse (builtEntry mt up fp bs gbs0) := by
        rcases hneg with hflag | hcont
        · have hgp : (builtEntry mt up fp bs gbs0).gzipPayload = none := by
            have := builtEntry_gzip_eq_flag mt up fp bs gbs0
            rw [hflag] at this
            exact Option.not_isSome_iff_eq_none.mp (by simp [this])
          exact serveEntry_none _ ae hgp
        · cases hgp : (builtEntry mt up fp bs gbs0).gzipPayload with
          | none => exact serveEntry_none _ ae hgp
          | some g =>
            rw [serveEntry_some _ ae g hgp, if_neg (by simp [hcont])]
      refine ⟨hnone, by rw [hnone]; rfl, ?_⟩
      intro v
      rw [hnone]
      simp only [identityResponse, List.mem_singleton, Prod.mk.injEq, not_and]
      intro hh
      exact absurd hh (by decide)

/-- Witness for C5, at a one-byte extensionless file and an Accept-Encoding
value of `gzip`. -/
theorem C5_encoding_negotiation_witness :
    ∃ ce, [builtEntry mtW (str "/f") (str "/f") [65] [0, 65]] = [] ++ [ce]
      ∧ ce.gzipPayload.isSome = ce.shouldServeCompressed
      ∧ (∀ gbs, ce.gzipPayload = some gbs → goContains (str "gzip") (str "gzip") = true →
          serveEntry ce (str "gzip") = gzipResponse ce gbs
          ∧ (str "Content-Encoding", str "gzip") ∈ (serveEntry ce (str "gzip")).headers
          ∧ (serveEntry ce (str "gzip")).body = gbs)
      ∧ ((ce.shouldServeCompressed = false ∨ goContains (str "gzip") (str "gzip") = false) →
          serveEntry ce (str "gzip") = identityResponse ce
          ∧ (serveEntry ce (str "gzip")).body = ce.identityPayload
          ∧ ∀ v, (str "Content-Encoding", v) ∉ (serveEntry ce (str "gzip")).headers) :=
  C5_encoding_negotiation mtW gzW [] (str "/f") (str "/f") [65]
    [builtEntry mtW (str "/f") (str "/f") [65] [0, 65]] (str "gzip") rfl

/-- **C6**: every request path is normalized (prefix `/`, purely lexical
clean) and resolution always lands on an existing cache key — the cleaned
path itself or the `/index.html` fallback — with success status, provided the
fallback record exists. -/
theorem C6_lexical_normalization_safety (h : handler) (p ae : Str) (idx : cacheEntry)
    (hidx : mapGet h.cache defaultWebpath = some idx) :
    ∃ k ce, mapGet h.cache k = some ce
      ∧ serveHTTP h p ae = serveEntry ce ae
      ∧ (serveHTTP h p ae).status = 200
      ∧ (k = goClean (if (str "/").isPrefixOf p then p else '/' :: p)
          ∨ k = defaultWebpath) := by
  cases hm : mapGet h.cache (goClean (if (str "/").isPrefixOf p then p else '/' :: p)) with
  | some ce =>
    have heq := serveHTTP_hit h p ae ce hm
    exact ⟨_, ce, hm, heq, heq ▸ serveEntry_status ce ae, Or.inl rfl⟩
  | none =>
    have heq := serveHTTP_miss h p ae idx hm hidx
    exact ⟨defaultWebpath, idx, hidx, heq, heq ▸ serveEntry_status idx ae, Or.inr rfl⟩

/-- Witness for C6: the traversal attempt `/../../etc/passwd` cleans to
`/etc/passwd`, misses the cache and resolves to the fallback key. -/
theorem C6_lexical_normalization_safety_witness :
    ∃ k ce, mapGet hW.cache k = some ce
      ∧ serveHTTP hW (str "/../../etc/passwd") [] = serveEntry ce []
      ∧ (serveHTTP hW (str "/../../etc/passwd") []).status = 200
      ∧ (k = goClean (if (str "/").isPrefixOf (str "/../../etc/passwd")
            then (str "/../../etc/passwd") else '/' :: (str "/../../etc/passwd"))
          ∨ k = defaultWebpath) :=
  C6_lexical_normalization_safety hW (str "/../../etc/passwd") [] ceIdxW (by decide)

/-- **C7**: when the walk over a well-formed tree succeeds, the cache's url
paths are exactly the root-relative paths of the non-hidden regular files,
each joined with `/` and prefixed with `/`; with distinct names per directory,
each published file owns exactly one cache record, and hidden entries (names
beginning with `.` or `_`, files or whole subtrees) are never published —
`publishedPaths` skips them by construction. -/
theorem C7_cache_keys (mt : Str → Str) (gz : Bytes → Except Str Bytes)
    (es : List FsEntry) (fpath : Str) (cache : List cacheEntry)
    (hgood : goodNamesList es)
    (hok : appendDirEntries mt gz [] (str "/") fpath es = .ok cache) :
    cache.map (fun ce => ce.urlpath) = (publishedPathsList [] es).map rootedPath
    ∧ ((es.map FsEntry.name).Nodup → nodupNamesList es →
        ∀ q ∈ publishedPathsList [] es,
          countKey cache (rootedPath q) = 1) := by
  have hok' : appendDirEntries mt gz [] (rootedPath []) fpath es = .ok cache := hok
  have hkeys := appendDirEntries_keys mt gz es [] [] fpath cache hgood
    (by intro s hs; simp at hs) hok'
  simp only [List.map_nil, List.nil_append] at hkeys
  refine ⟨hkeys, ?_⟩
  intro hnodup hnames q hq
  have hck : countKey cache (rootedPath q)
      = (cache.map (fun ce => ce.urlpath)).countP
          (fun x => decide (x = rootedPath q)) := by
    rw [countKey, List.countP_map]
    rfl
  rw [hck, hkeys]
  have hsegs : ∀ q' ∈ publishedPathsList [] es, (∀ s ∈ q', '/' ∉ s) ∧ q' ≠ [] :=
    fun q' hq' => publishedPathsList_segs es [] q' hgood
      (by intro s hs; simp at hs) hq'
  have hmapnd : ((publishedPathsList [] es).map rootedPath).Nodup := by
    refine List.Nodup.map_on ?_ (publishedPathsList_nodup es [] hnodup hnames)
    intro x hx y hy hxy
    exact rootedPath_inj x y (hsegs x hx).1 (hsegs x hx).2
      (hsegs y hy).1 (hsegs y hy).2 hxy
  exact countP_eq_one_of_mem_nodup hmapnd (List.mem_map_of_mem rootedPath hq)

/-- Witness for C7, at the one-file tree `esW`. -/
theorem C7_cache_keys_witness :
    cacheW.map (fun ce => ce.urlpath) = (publishedPathsList [] esW).map rootedPath
    ∧ ((esW.map FsEntry.name).Nodup → nodupNamesList esW →
        ∀ q ∈ publishedPathsList [] esW,
          countKey cacheW (rootedPath q) = 1) :=
  C7_cache_keys mtW gzW esW (str "/r") cacheW ⟨⟨by decide, by decide⟩, trivial⟩ rfl

/-- **C8**: an error anywhere in the directory walk — unreadable directory,
unreadable file, or compressor failure — aborts the whole build, which
returns the first such error and no cache. -/
theorem C8_build_aborts_on_error (mt : Str → Str) (gz : Bytes → Except Str Bytes)
    (dirPath rname : Str) (es : List FsEntry) (err : Str)
    (hfe : firstErrorList gz es = some err) :
    newHandler mt gz dirPath (.dir rname es) = .error err := by
  have h := (appendDirEntries_firstError gz es mt [] (str "/") dirPath).1 err hfe
  simp [newHandler, bind, Except.bind, h]

/-- Witness for C8: a tree whose second entry is an unreadable directory. -/
theorem C8_build_aborts_on_error_witness :
    newHandler mtW gzW (str "/r")
        (.dir (str "r") [.file (str "index.html") (.ok [60]),
          .badDir (str "sub") (str "boom")])
      = .error (str "boom") :=
  C8_build_aborts_on_error mtW gzW (str "/r") (str "r")
    [.file (str "index.html") (.ok [60]), .badDir (str "sub") (str "boom")]
    (str "boom") (by decide)

/-- **C10**: for every record built with the compression flag set, the stored
compressed payload is exactly the compressor's output on the plain payload, so
any decompressor that inverts the compressor recovers the plain payload
(round-trip law). -/
theorem C10_roundtrip (mt : Str → Str) (gz : Bytes → Except Str Bytes)
    (unz : Bytes → Bytes) (slice : List cacheEntry) (up fp : Str) (bs : Bytes)
    (res : List cacheEntry) (ce : cacheEntry) (gbs : Bytes)
    (hinv : ∀ b g, gz b = .ok g → unz g = b)
    (hok : appendFileEntry mt gz slice up fp (.ok bs) = .ok res)
    (hres : res = slice ++ [ce])
    (hgbs : ce.gzipPayload = some gbs) :
    ce.shouldServeCompressed = true ∧ unz gbs = ce.identityPayload := by
  rw [appendFileEntry_eq] at hok
  cases hgz : gz bs with
  | error e => rw [hgz] at hok; exact absurd hok (by simp)
  | ok gbs0 =>
    rw [hgz] at hok
    have h1 : slice ++ [builtEntry mt up fp bs gbs0] = slice ++ [ce] := by
      rw [← hres]
      exact Except.ok.inj hok
    have hce : ce = builtEntry mt up fp bs gbs0 :=
      ((List.cons.inj (List.append_cancel_left h1)).1).symm
    subst hce
    by_cases hf : builtFlag mt fp bs
    · have hsome := builtEntry_gzipPayload_some mt up fp bs gbs0 hf
      rw [hsome] at hgbs
      obtain rfl := Option.some.inj hgbs
      refine ⟨by rw [builtEntry_shouldServe, hf], ?_⟩
      rw [builtEntry_identityPayload]
      exact hinv bs gbs0 hgz
    · have hnone := builtEntry_gzipPayload_none mt up fp bs gbs0
        (Bool.not_eq_true _ ▸ hf)
      rw [hnone] at hgbs
      exact absurd hgbs (by simp)

/-- Witness for C10: `gzW` prepends a byte, `unzW` drops it; on a 1460-byte
file the flag is set and the round trip recovers the payload. -/
theorem C10_roundtrip_witness :
    (builtEntry mtW (str "/f") (str "/f") (List.replicate 1460 7)
        (0 :: List.replicate 1460 7)).shouldServeCompressed = true
      ∧ unzW (0 :: List.replicate 1460 7)
          = (builtEntry mtW (str "/f") (str "/f") (List.replicate 1460 7)
              (0 :: List.replicate 1460 7)).identityPayload :=
  C10_roundtrip mtW gzW unzW [] (str "/f") (str "/f") (List.replicate 1460 7)
    [builtEntry mtW (str "/f") (str "/f") (List.replicate 1460 7)
      (0 :: List.replicate 1460 7)]
    (builtEntry mtW (str "/f") (str "/f") (List.replicate 1460 7)
      (0 :: List.replicate 1460 7))
    (0 :: List.replicate 1460 7)
    (fun b g h => by cases h; rfl)
    (by rw [appendFileEntry_eq]; rfl)
    rfl
    (builtEntry_gzipPayload_some mtW (str "/f") (str "/f") (List.replicate 1460 7)
      (0 :: List.replicate 1460 7)
      (by rw [builtFlag_eq mtW (str "/f") (List.replicate 1460 7) (by decide)]; simp))

end Spa
